import Mathlib

/-
  Verification of the relearn reinforcement-learning core
  (src/relearn.hpp): the state and action identity wrappers, the
  link type, the policy table, the deterministic q_learning
  algorithm and the frequency-based q_probabilistic algorithm.

  Values (value_type, a C++ double) are modelled as rationals so that
  the update formulas are exact; frequency counts (std::size_t) are
  modelled as naturals.  The unordered maps are modelled as
  association lists whose keys are compared by the wrapped trait,
  because state and action equality and hashing delegate to the trait
  only.  The auto-vivifying reads of operator[] are modelled
  explicitly: every read returns the value together with the possibly
  grown map.
-/

set_option linter.unusedVariables false
set_option linter.unusedSectionVars false

namespace relearn

/-- A state wraps a user trait together with a scalar reward.  The C++
class compares and hashes states by the trait only, so table lookups
treat the reward as payload, not identity. -/
structure state (σ : Type) where
  reward : ℚ
  trait : σ
deriving DecidableEq

/-- An action is a pure identity wrapper around a user trait. -/
structure action (α : Type) where
  trait : α
deriving DecidableEq

/-- A link pairs one state with the action taken from it; an episode is
an ordered list of links. -/
structure link (σ α : Type) where
  state : state σ
  action : action α
deriving DecidableEq

instance {σ : Type} [Inhabited σ] : Inhabited (state σ) := ⟨⟨0, default⟩⟩

instance {α : Type} [Inhabited α] : Inhabited (action α) := ⟨⟨default⟩⟩

instance {σ α : Type} [Inhabited σ] [Inhabited α] : Inhabited (link σ α) :=
  ⟨⟨default, default⟩⟩

/-- Lookup in an association list, comparing keys through the
projection f: the C++ unordered maps compare state and action keys by
their trait. -/
def lookupBy {κ β γ : Type} [DecidableEq γ] (f : κ → γ) : List (κ × β) → κ → Option β
  | [], _ => none
  | (k, v) :: rest, key => if f k = f key then some v else lookupBy f rest key

/-- Overwrite the value stored under a key, appending a new entry when
the key is absent; an existing entry keeps its originally inserted key
object, as unordered_map does. -/
def setBy {κ β γ : Type} [DecidableEq γ] (f : κ → γ) : List (κ × β) → κ → β → List (κ × β)
  | [], key, v => [(key, v)]
  | (k, w) :: rest, key, v =>
      if f k = f key then (k, v) :: rest else (k, w) :: setBy f rest key v

/-- The auto-vivifying read of unordered_map operator[]: return the
stored value, or insert the given default at the end and return it. -/
def getOr {κ β γ : Type} [DecidableEq γ] (f : κ → γ) (l : List (κ × β)) (key : κ) (d : β) :
    β × List (κ × β) :=
  match lookupBy f l key with
  | some v => (v, l)
  | none => (d, l ++ [(key, d)])

/-- The policy table: a two-level map from state to action to value,
keyed by trait. -/
abbrev policy (σ α : Type) := List (state σ × List (action α × ℚ))

namespace policy

variable {σ α : Type} [DecidableEq σ] [DecidableEq α]

/-- actions: the read of the whole action map for a state,
auto-vivifying the state entry. -/
def actions (p : policy σ α) (s : state σ) : List (action α × ℚ) × policy σ α :=
  getOr state.trait p s []

/-- update: write q into the entry of the pair, vivifying as needed. -/
def update (p : policy σ α) (s : state σ) (a : action α) (q : ℚ) : policy σ α :=
  let g := getOr state.trait p s []
  setBy state.trait g.2 s (setBy action.trait g.1 a q)

/-- value: return the stored value of the pair, vivifying both levels
with a zero default. -/
def value (p : policy σ α) (s : state σ) (a : action α) : ℚ × policy σ α :=
  let g := getOr state.trait p s []
  let i := getOr action.trait g.1 a 0
  (i.1, setBy state.trait g.2 s i.2)

/-- One comparison step of std::max_element with the comparator on the
stored value: the running best is replaced only when strictly
exceeded, so the first of equal maxima wins. -/
def maxStep {κ : Type} (best y : κ × ℚ) : κ × ℚ :=
  if best.2 < y.2 then y else best

/-- std::max_element over an action map: none on the empty map,
otherwise the scan from the first entry. -/
def maxElem {κ : Type} : List (κ × ℚ) → Option (κ × ℚ)
  | [] => none
  | x :: rest => some (rest.foldl maxStep x)

/-- best_value: the greatest stored value for the state, or 0 when the
state has no recorded actions; the read vivifies the state entry. -/
def best_value (p : policy σ α) (s : state σ) : ℚ × policy σ α :=
  let g := getOr state.trait p s []
  ((match maxElem g.1 with
    | some pr => pr.2
    | none => 0), g.2)

/-- best_action: the action attaining best_value, or none when the
state has no recorded actions; the read vivifies the state entry. -/
def best_action (p : policy σ α) (s : state σ) : Option (action α) × policy σ α :=
  let g := getOr state.trait p s []
  ((maxElem g.1).map (fun pr => pr.1), g.2)

/-- Pure, non-vivifying view of the stored entry of a pair, used to
state frame properties about the table contents. -/
def valueStored (p : policy σ α) (s : state σ) (a : action α) : Option ℚ :=
  (lookupBy state.trait p s).bind fun mp => lookupBy action.trait mp a

end policy

/-- The deterministic Q-learning algorithm, fixed by its learning rate
alpha and discount gamma. -/
structure q_learning where
  alpha : ℚ
  gamma : ℚ

namespace q_learning

variable {σ α : Type} [DecidableEq σ] [DecidableEq α] [Inhabited σ] [Inhabited α]

/-- q_value: the update rule.  At a non-last index the one-step TD
value toward the current reward plus the discounted best next value;
at the last index the raw reward of the terminal state.  The reads of
value and best_value vivify the policy, so the grown policy is
returned alongside the triplet. -/
def q_value (c : q_learning) (ep : List (link σ α)) (index : ℕ) (p : policy σ α) :
    (state σ × action α × ℚ) × policy σ α :=
  let step := ep.getD index default
  if index < ep.length - 1 then
    let v := policy.value p step.state step.action
    let q := v.1
    let next := ep.getD (index + 1) default
    let b := policy.best_value v.2 next.state
    let q_next := b.1
    let r := step.state.reward
    ((step.state, step.action, q + c.alpha * (r + (c.gamma * q_next) - q)), b.2)
  else
    ((step.state, step.action, step.state.reward), p)

/-- One iteration of the loop of operator(): compute the triplet for
index i and immediately write it into the policy. -/
def updStep (c : q_learning) (ep : List (link σ α)) (p : policy σ α) (i : ℕ) : policy σ α :=
  let t := c.q_value ep i p
  policy.update t.2 t.1.1 t.1.2.1 t.1.2.2

/-- operator(): the forward pass over every index of the episode. -/
def apply (c : q_learning) (ep : List (link σ α)) (p : policy σ α) : policy σ α :=
  (List.range ep.length).foldl (c.updStep ep) p

end q_learning

/-- frequency: map from successor state to observation count. -/
abbrev fmap (σ : Type) := List (state σ × ℕ)

/-- transition: map from action to its frequency map. -/
abbrev tmap (σ α : Type) := List (action α × fmap σ)

/-- observation: map from state to its transition map; this is the
private memory of the probabilistic algorithm. -/
abbrev omap (σ α : Type) := List (state σ × tmap σ α)

/-- The probabilistic Q-learning algorithm, fixed by its discount
gamma; its observation memory is threaded explicitly. -/
structure q_probabilistic where
  gamma : ℚ

namespace q_probabilistic

variable {σ α : Type} [DecidableEq σ] [DecidableEq α] [Inhabited σ] [Inhabited α]

/-- The increment of the accounting pass: vivify the chain of the
observed transition and add one to its count. -/
def bumpMem (m : omap σ α) (s : state σ) (a : action α) (sn : state σ) : omap σ α :=
  let og := getOr state.trait m s []
  let tg := getOr action.trait og.1 a []
  let fg := getOr state.trait tg.1 sn 0
  setBy state.trait og.2 s
    (setBy action.trait tg.2 a (setBy state.trait fg.2 sn (fg.1 + 1)))

/-- The body of the accounting pass at index i: the last index is
skipped, every other index records its observed transition. -/
def accStep (ep : List (link σ α)) (m : omap σ α) (i : ℕ) : omap σ α :=
  if i = ep.length - 1 then m
  else
    bumpMem m (ep.getD i default).state (ep.getD i default).action
      (ep.getD (i + 1) default).state

/-- The accounting pass of operator(): record every observed
transition of the episode. -/
def accounting (ep : List (link σ α)) (m : omap σ α) : omap σ α :=
  (List.range ep.length).foldl (accStep ep) m

/-- q_value: the probabilistic update rule.  prob is the quotient of
the transition count by the number of distinct recorded successors;
both operands are std::size_t in the source, so the division is
integer division, and its truncated result is then converted to the
value type.  The reads vivify the policy and the memory, so both are
returned alongside the triplet. -/
def q_value (c : q_probabilistic) (ep : List (link σ α)) (index : ℕ)
    (p : policy σ α) (m : omap σ α) :
    (state σ × action α × ℚ) × policy σ α × omap σ α :=
  let step := ep.getD index default
  if index < ep.length - 1 then
    let v := policy.value p step.state step.action
    let q := v.1
    let next := ep.getD (index + 1) default
    let b := policy.best_value v.2 next.state
    let q_next := b.1
    let r := step.state.reward
    let og := getOr state.trait m step.state []
    let tg := getOr action.trait og.1 step.action []
    let fg := getOr state.trait tg.1 next.state 0
    let m1 := setBy state.trait og.2 step.state (setBy action.trait tg.2 step.action fg.2)
    let prob : ℚ := ((fg.1 / fg.2.length : ℕ) : ℚ)
    let r_expected := prob * r
    ((step.state, step.action, r_expected + (c.gamma * (q_next * prob))), b.2, m1)
  else
    ((step.state, step.action, step.state.reward), p, m)

/-- One iteration of the update pass: compute the triplet for index i
and write it into the policy, keeping the grown memory. -/
def updStep (c : q_probabilistic) (ep : List (link σ α))
    (pm : policy σ α × omap σ α) (i : ℕ) : policy σ α × omap σ α :=
  let t := c.q_value ep i pm.1 pm.2
  (policy.update t.2.1 t.1.1 t.1.2.1 t.1.2.2, t.2.2)

/-- operator(): the accounting pass over the whole episode followed by
the update pass over the whole episode. -/
def apply (c : q_probabilistic) (ep : List (link σ α))
    (p : policy σ α) (m : omap σ α) : policy σ α × omap σ α :=
  (List.range ep.length).foldl (c.updStep ep) (p, accounting ep m)

/-- Feed the same episode n times in a row to the same instance. -/
def applyN (c : q_probabilistic) (ep : List (link σ α)) :
    ℕ → policy σ α × omap σ α → policy σ α × omap σ α
  | 0, pm => pm
  | n + 1, pm => applyN c ep n (c.apply ep pm.1 pm.2)

/-- The policy and memory state reached just before update-pass step i
of a call of apply. -/
def before (c : q_probabilistic) (ep : List (link σ α))
    (p : policy σ α) (m : omap σ α) (i : ℕ) : policy σ α × omap σ α :=
  (List.range i).foldl (c.updStep ep) (p, accounting ep m)

end q_probabilistic

/-- The frequency map recorded in observation memory for a pair,
reached by the same trait-keyed lookups the algorithm performs. -/
def chainSA {σ α : Type} [DecidableEq σ] [DecidableEq α]
    (m : omap σ α) (s : state σ) (a : action α) : fmap σ :=
  (lookupBy action.trait ((lookupBy state.trait m s).getD []) a).getD []

/-- The number of distinct successor states recorded for a pair: the
map size used as the divisor by the probabilistic update. -/
def sizeAt {σ α : Type} [DecidableEq σ] [DecidableEq α]
    (m : omap σ α) (s : state σ) (a : action α) : ℕ :=
  (chainSA m s a).length

/-- The recorded frequency count of one transition. -/
def countAt {σ α : Type} [DecidableEq σ] [DecidableEq α]
    (m : omap σ α) (s : state σ) (a : action α) (sn : state σ) : ℕ :=
  (lookupBy state.trait (chainSA m s a) sn).getD 0

/-- Index i of the episode records the transition of the pair (s, a)
to sn during the accounting pass. -/
def accPred {σ α : Type} [Inhabited σ] [Inhabited α]
    (ep : List (link σ α)) (s : state σ) (a : action α) (sn : state σ) (i : ℕ) : Prop :=
  ¬ i = ep.length - 1 ∧ s.trait = (ep.getD i default).state.trait ∧
    a.trait = (ep.getD i default).action.trait ∧
    sn.trait = (ep.getD (i + 1) default).state.trait

instance accPredDecidable {σ α : Type} [DecidableEq σ] [DecidableEq α]
    [Inhabited σ] [Inhabited α] (ep : List (link σ α)) (s : state σ) (a : action α)
    (sn : state σ) (i : ℕ) : Decidable (accPred ep s a sn i) := by
  unfold accPred; infer_instance

/-- How many accounting-pass indices of the episode record this
transition. -/
def occurs {σ α : Type} [DecidableEq σ] [DecidableEq α] [Inhabited σ] [Inhabited α]
    (ep : List (link σ α)) (s : state σ) (a : action α) (sn : state σ) : ℕ :=
  ((List.range ep.length).filter fun i => decide (accPred ep s a sn i)).length

/-- Concrete states over natural traits, for the example inputs. -/
def sN (r : ℚ) (t : ℕ) : state ℕ := ⟨r, t⟩

/-- Concrete actions over natural traits, for the example inputs. -/
def aN (t : ℕ) : action ℕ := ⟨t⟩

section assoc

variable {κ β γ : Type} [DecidableEq γ] {f : κ → γ}

theorem lookupBy_congr {l : List (κ × β)} {k1 k2 : κ} (h : f k1 = f k2) :
    lookupBy f l k1 = lookupBy f l k2 := by
  induction l with
  | nil => rfl
  | cons hd tl ih =>
    obtain ⟨k, v⟩ := hd
    simp only [lookupBy]
    rw [h, ih]

theorem lookupBy_setBy_eq {l : List (κ × β)} {k1 k2 : κ} (h : f k2 = f k1) (v : β) :
    lookupBy f (setBy f l k1 v) k2 = some v := by
  induction l with
  | nil =>
    simp only [setBy, lookupBy]
    rw [if_pos h.symm]
  | cons hd tl ih =>
    obtain ⟨k, w⟩ := hd
    simp only [setBy]
    by_cases hk : f k = f k1
    · rw [if_pos hk]
      simp only [lookupBy]
      rw [if_pos (hk.trans h.symm)]
    · rw [if_neg hk]
      simp only [lookupBy]
      rw [if_neg (fun hc => hk (hc.trans h)), ih]

theorem lookupBy_setBy_ne {l : List (κ × β)} {k1 k2 : κ} (h : ¬ f k2 = f k1) (v : β) :
    lookupBy f (setBy f l k1 v) k2 = lookupBy f l k2 := by
  induction l with
  | nil =>
    simp only [setBy, lookupBy]
    rw [if_neg (fun hc => h hc.symm)]
  | cons hd tl ih =>
    obtain ⟨k, w⟩ := hd
    simp only [setBy]
    by_cases hk : f k = f k1
    · rw [if_pos hk]
      simp only [lookupBy]
      have hk2 : ¬ f k = f k2 := fun hc => h (hc.symm.trans hk)
      rw [if_neg hk2, if_neg hk2]
    · rw [if_neg hk]
      simp only [lookupBy]
      by_cases hk2 : f k = f k2
      · rw [if_pos hk2, if_pos hk2]
      · rw [if_neg hk2, if_neg hk2, ih]

theorem lookupBy_append_left {l1 l2 : List (κ × β)} {k : κ} {v : β}
    (h : lookupBy f l1 k = some v) : lookupBy f (l1 ++ l2) k = some v := by
  induction l1 with
  | nil => simp [lookupBy] at h
  | cons hd tl ih =>
    obtain ⟨k0, w⟩ := hd
    by_cases hk : f k0 = f k <;> simp_all [lookupBy]

theorem lookupBy_append_right {l1 l2 : List (κ × β)} {k : κ}
    (h : lookupBy f l1 k = none) : lookupBy f (l1 ++ l2) k = lookupBy f l2 k := by
  induction l1 with
  | nil => rfl
  | cons hd tl ih =>
    obtain ⟨k0, w⟩ := hd
    by_cases hk : f k0 = f k <;> simp_all [lookupBy]

theorem lookupBy_append_single_ne {l : List (κ × β)} {k1 k2 : κ} (h : ¬ f k2 = f k1) (d : β) :
    lookupBy f (l ++ [(k1, d)]) k2 = lookupBy f l k2 := by
  cases hl : lookupBy f l k2 with
  | some v => exact lookupBy_append_left hl
  | none =>
    rw [lookupBy_append_right hl]
    simp only [lookupBy]
    rw [if_neg (fun hc => h hc.symm)]

theorem setBy_length_of_lookup {l : List (κ × β)} {k : κ} {w : β}
    (h : lookupBy f l k = some w) (v : β) : (setBy f l k v).length = l.length := by
  induction l with
  | nil => simp [lookupBy] at h
  | cons hd tl ih =>
    obtain ⟨k0, w0⟩ := hd
    by_cases hk : f k0 = f k <;> simp_all [lookupBy, setBy]

theorem setBy_of_lookup_none {l : List (κ × β)} {k : κ}
    (h : lookupBy f l k = none) (v : β) : setBy f l k v = l ++ [(k, v)] := by
  induction l with
  | nil => rfl
  | cons hd tl ih =>
    obtain ⟨k0, w0⟩ := hd
    by_cases hk : f k0 = f k <;> simp_all [lookupBy, setBy]

theorem one_le_length_setBy (l : List (κ × β)) (k : κ) (v : β) :
    1 ≤ (setBy f l k v).length := by
  cases l with
  | nil => simp [setBy]
  | cons hd tl =>
    obtain ⟨k0, w0⟩ := hd
    by_cases hk : f k0 = f k <;> simp [setBy, hk]

theorem getOr_fst (l : List (κ × β)) (key : κ) (d : β) :
    (getOr f l key d).1 = (lookupBy f l key).getD d := by
  unfold getOr
  cases lookupBy f l key <;> simp

theorem getOr_snd_of_some {l : List (κ × β)} {key : κ} {v : β}
    (h : lookupBy f l key = some v) (d : β) : (getOr f l key d).2 = l := by
  unfold getOr
  rw [h]

theorem getOr_snd_of_none {l : List (κ × β)} {key : κ}
    (h : lookupBy f l key = none) (d : β) : (getOr f l key d).2 = l ++ [(key, d)] := by
  unfold getOr
  rw [h]

end assoc

section maxlemmas

variable {κ : Type}

theorem maxStep_cases (b y : κ × ℚ) : policy.maxStep b y = b ∨ policy.maxStep b y = y := by
  unfold policy.maxStep
  by_cases h : b.2 < y.2 <;> simp [h]

theorem le_maxStep_left (b y : κ × ℚ) : b.2 ≤ (policy.maxStep b y).2 := by
  unfold policy.maxStep
  by_cases h : b.2 < y.2 <;> simp [h]
  exact le_of_lt h

theorem le_maxStep_right (b y : κ × ℚ) : y.2 ≤ (policy.maxStep b y).2 := by
  unfold policy.maxStep
  by_cases h : b.2 < y.2 <;> simp [h]
  exact le_of_not_lt h

theorem maxFold_mem (l : List (κ × ℚ)) (x : κ × ℚ) :
    l.foldl policy.maxStep x ∈ x :: l := by
  induction l generalizing x with
  | nil => simp
  | cons z tl ih =>
    rw [List.foldl_cons]
    rcases List.mem_cons.mp (ih (policy.maxStep x z)) with h2 | h2
    · rcases maxStep_cases x z with h | h <;> rw [h2, h] <;> simp
    · exact List.mem_cons_of_mem _ (List.mem_cons_of_mem _ h2)

theorem le_maxFold (l : List (κ × ℚ)) (x : κ × ℚ) :
    x.2 ≤ (l.foldl policy.maxStep x).2 := by
  induction l generalizing x with
  | nil => simp
  | cons z tl ih =>
    rw [List.foldl_cons]
    exact le_trans (le_maxStep_left x z) (ih _)

theorem maxFold_ge (l : List (κ × ℚ)) (x : κ × ℚ) :
    ∀ y ∈ l, y.2 ≤ (l.foldl policy.maxStep x).2 := by
  induction l generalizing x with
  | nil => simp
  | cons z tl ih =>
    intro y hy
    rw [List.foldl_cons]
    rcases List.mem_cons.mp hy with h | h
    · subst h
      exact le_trans (le_maxStep_right x y) (le_maxFold tl _)
    · exact ih _ y h

theorem maxElem_spec {l : List (κ × ℚ)} (h : l ≠ []) :
    ∃ pr, policy.maxElem l = some pr ∧ pr ∈ l ∧ ∀ y ∈ l, y.2 ≤ pr.2 := by
  cases l with
  | nil => exact absurd rfl h
  | cons x tl =>
    refine ⟨tl.foldl policy.maxStep x, rfl, maxFold_mem tl x, ?_⟩
    intro y hy
    rcases List.mem_cons.mp hy with h | h
    · subst h
      exact le_maxFold tl y
    · exact maxFold_ge tl x y h

end maxlemmas

section policylemmas

variable {σ α : Type} [DecidableEq σ] [DecidableEq α]

theorem value_fst (p : policy σ α) (s : state σ) (a : action α) :
    (policy.value p s a).1
      = (lookupBy action.trait ((lookupBy state.trait p s).getD []) a).getD 0 := by
  show (getOr action.trait (getOr state.trait p s []).1 a 0).1 = _
  rw [getOr_fst, getOr_fst]

theorem valueStored_getD (p : policy σ α) (s : state σ) (a : action α) :
    (policy.valueStored p s a).getD 0
      = (lookupBy action.trait ((lookupBy state.trait p s).getD []) a).getD 0 := by
  unfold policy.valueStored
  cases lookupBy state.trait p s <;> simp [lookupBy]

theorem value_eq_stored (p : policy σ α) (s : state σ) (a : action α) :
    (policy.value p s a).1 = (policy.valueStored p s a).getD 0 := by
  rw [value_fst, valueStored_getD]

theorem valueStored_update_self (p : policy σ α) (s : state σ) (a : action α) (q : ℚ) :
    policy.valueStored (policy.update p s a q) s a = some q := by
  unfold policy.update policy.valueStored
  rw [lookupBy_setBy_eq rfl]
  simp only [Option.some_bind]
  rw [lookupBy_setBy_eq rfl]

end policylemmas

section memlemmas

variable {σ α : Type} [DecidableEq σ] [DecidableEq α] [Inhabited σ] [Inhabited α]

theorem updStep_snd (c : q_probabilistic) (ep : List (link σ α)) (pm : policy σ α × omap σ α)
    (i : ℕ) : (c.updStep ep pm i).2 = (c.q_value ep i pm.1 pm.2).2.2 := rfl

theorem qv_mem_last (c : q_probabilistic) (ep : List (link σ α)) (i : ℕ)
    (p : policy σ α) (m : omap σ α) (hi : ¬ i < ep.length - 1) :
    (c.q_value ep i p m).2.2 = m := by
  unfold q_probabilistic.q_value
  rw [if_neg hi]

theorem qv_mem (c : q_probabilistic) (ep : List (link σ α)) (i : ℕ)
    (p : policy σ α) (m : omap σ α) (hi : i < ep.length - 1) :
    (c.q_value ep i p m).2.2
      = setBy state.trait (getOr state.trait m (ep.getD i default).state []).2
          (ep.getD i default).state
          (setBy action.trait
            (getOr action.trait (getOr state.trait m (ep.getD i default).state []).1
              (ep.getD i default).action []).2
            (ep.getD i default).action
            (getOr state.trait
              (getOr action.trait (getOr state.trait m (ep.getD i default).state []).1
                (ep.getD i default).action []).1
              (ep.getD (i + 1) default).state 0).2) := by
  unfold q_probabilistic.q_value
  rw [if_pos hi]

theorem chainSA_set2 (m : omap σ α) (x : state σ) (y : action α) (F : fmap σ)
    (s : state σ) (a : action α) :
    chainSA (setBy state.trait (getOr state.trait m x []).2 x
        (setBy action.trait
          (getOr action.trait (getOr state.trait m x []).1 y []).2 y F)) s a
      = if s.trait = x.trait ∧ a.trait = y.trait then F else chainSA m s a := by
  unfold chainSA
  by_cases hs : s.trait = x.trait
  · rw [lookupBy_setBy_eq hs]
    simp only [Option.getD_some]
    by_cases ha : a.trait = y.trait
    · rw [lookupBy_setBy_eq ha, if_pos ⟨hs, ha⟩]
      simp
    · rw [lookupBy_setBy_ne ha, if_neg (fun hc => ha hc.2)]
      rw [lookupBy_congr (f := state.trait) hs]
      cases hy : lookupBy action.trait (getOr state.trait m x []).1 y with
      | some t => rw [getOr_snd_of_some hy, getOr_fst]
      | none => rw [getOr_snd_of_none hy, lookupBy_append_single_ne ha, getOr_fst]
  · rw [lookupBy_setBy_ne hs, if_neg (fun hc => hs hc.1)]
    cases hx : lookupBy state.trait m x with
    | some t => rw [getOr_snd_of_some hx]
    | none => rw [getOr_snd_of_none hx, lookupBy_append_single_ne hs]

theorem chainSA_bump (m : omap σ α) (x z : state σ) (y : action α)
    (s : state σ) (a : action α) :
    chainSA (q_probabilistic.bumpMem m x y z) s a
      = if s.trait = x.trait ∧ a.trait = y.trait
        then setBy state.trait
              (getOr state.trait
                (getOr action.trait (getOr state.trait m x []).1 y []).1 z 0).2 z
              ((getOr state.trait
                (getOr action.trait (getOr state.trait m x []).1 y []).1 z 0).1 + 1)
        else chainSA m s a :=
  chainSA_set2 m x y _ s a

theorem chainSA_qv (c : q_probabilistic) (ep : List (link σ α)) (i : ℕ)
    (p : policy σ α) (m : omap σ α) (hi : i < ep.length - 1)
    (s : state σ) (a : action α) :
    chainSA ((c.q_value ep i p m).2.2) s a
      = if s.trait = (ep.getD i default).state.trait ∧
            a.trait = (ep.getD i default).action.trait
        then (getOr state.trait
               (getOr action.trait
                 (getOr state.trait m (ep.getD i default).state []).1
                 (ep.getD i default).action []).1
               (ep.getD (i + 1) default).state 0).2
        else chainSA m s a := by
  rw [qv_mem c ep i p m hi]
  exact chainSA_set2 m _ _ _ s a

theorem chainSA_eq_getOr (m : omap σ α) (x s : state σ) (y a : action α)
    (hs : s.trait = x.trait) (ha : a.trait = y.trait) :
    chainSA m s a = (getOr action.trait (getOr state.trait m x []).1 y []).1 := by
  unfold chainSA
  rw [lookupBy_congr (f := state.trait) hs, getOr_fst, getOr_fst,
      lookupBy_congr (f := action.trait) ha]

theorem length_le_setBy_getOr (tg1 : fmap σ) (z : state σ) (n : ℕ) :
    tg1.length ≤ (setBy state.trait (getOr state.trait tg1 z 0).2 z n).length := by
  cases hz : lookupBy state.trait tg1 z with
  | some w => rw [getOr_snd_of_some hz, setBy_length_of_lookup hz]
  | none =>
    have hlk : lookupBy state.trait (tg1 ++ [(z, 0)]) z = some 0 := by
      rw [lookupBy_append_right hz]
      simp [lookupBy]
    rw [getOr_snd_of_none hz, setBy_length_of_lookup hlk]
    simp

theorem length_le_getOr_snd (tg1 : fmap σ) (z : state σ) (n : ℕ) :
    tg1.length ≤ (getOr state.trait tg1 z n).2.length := by
  cases hz : lookupBy state.trait tg1 z with
  | some w => rw [getOr_snd_of_some hz]
  | none =>
    rw [getOr_snd_of_none hz]
    simp

theorem sizeAt_le_bump (m : omap σ α) (x z : state σ) (y : action α)
    (s : state σ) (a : action α) :
    sizeAt m s a ≤ sizeAt (q_probabilistic.bumpMem m x y z) s a := by
  unfold sizeAt
  rw [chainSA_bump]
  by_cases h : s.trait = x.trait ∧ a.trait = y.trait
  · rw [if_pos h, chainSA_eq_getOr m x s y a h.1 h.2]
    exact length_le_setBy_getOr _ _ _
  · rw [if_neg h]

theorem one_le_sizeAt_bump (m : omap σ α) (x z : state σ) (y : action α) :
    1 ≤ sizeAt (q_probabilistic.bumpMem m x y z) x y := by
  unfold sizeAt
  rw [chainSA_bump, if_pos ⟨rfl, rfl⟩]
  exact one_le_length_setBy _ _ _

theorem sizeAt_le_qv (c : q_probabilistic) (ep : List (link σ α)) (i : ℕ)
    (p : policy σ α) (m : omap σ α) (s : state σ) (a : action α) :
    sizeAt m s a ≤ sizeAt ((c.q_value ep i p m).2.2) s a := by
  by_cases hi : i < ep.length - 1
  · unfold sizeAt
    rw [chainSA_qv c ep i p m hi]
    by_cases h : s.trait = (ep.getD i default).state.trait ∧
        a.trait = (ep.getD i default).action.trait
    · rw [if_pos h, chainSA_eq_getOr m _ s _ a h.1 h.2]
      exact length_le_getOr_snd _ _ _
    · rw [if_neg h]
  · rw [qv_mem_last c ep i p m hi]

theorem countAt_bump (m : omap σ α) (x z : state σ) (y : action α)
    (s : state σ) (a : action α) (sn : state σ) :
    countAt (q_probabilistic.bumpMem m x y z) s a sn
      = countAt m s a sn +
        (if s.trait = x.trait ∧ a.trait = y.trait ∧ sn.trait = z.trait then 1 else 0) := by
  unfold countAt
  rw [chainSA_bump]
  by_cases h : s.trait = x.trait ∧ a.trait = y.trait
  · rw [if_pos h, chainSA_eq_getOr m x s y a h.1 h.2]
    by_cases hz : sn.trait = z.trait
    · rw [if_pos ⟨h.1, h.2, hz⟩, lookupBy_setBy_eq hz,
          lookupBy_congr (f := state.trait) hz, getOr_fst]
      simp
    · rw [if_neg (fun hc => hz hc.2.2), lookupBy_setBy_ne hz]
      cases hzz : lookupBy state.trait
          (getOr action.trait (getOr state.trait m x []).1 y []).1 z with
      | some w =>
        rw [getOr_snd_of_some hzz]
        simp
      | none =>
        rw [getOr_snd_of_none hzz, lookupBy_append_single_ne hz]
        simp
  · rw [if_neg h, if_neg (fun hc => h ⟨hc.1, hc.2.1⟩)]
    simp

theorem countAt_qv (c : q_probabilistic) (ep : List (link σ α)) (i : ℕ)
    (p : policy σ α) (m : omap σ α) (s : state σ) (a : action α) (sn : state σ) :
    countAt ((c.q_value ep i p m).2.2) s a sn = countAt m s a sn := by
  by_cases hi : i < ep.length - 1
  · unfold countAt
    rw [chainSA_qv c ep i p m hi]
    by_cases h : s.trait = (ep.getD i default).state.trait ∧
        a.trait = (ep.getD i default).action.trait
    · rw [if_pos h, chainSA_eq_getOr m _ s _ a h.1 h.2]
      cases hz : lookupBy state.trait
          (getOr action.trait
            (getOr state.trait m (ep.getD i default).state []).1
            (ep.getD i default).action []).1 (ep.getD (i + 1) default).state with
      | some w => rw [getOr_snd_of_some hz]
      | none =>
        rw [getOr_snd_of_none hz]
        by_cases hsn : sn.trait = (ep.getD (i + 1) default).state.trait
        · rw [lookupBy_congr (f := state.trait) hsn,
              lookupBy_congr (f := state.trait) hsn,
              lookupBy_append_right hz, hz]
          simp [lookupBy]
        · rw [lookupBy_append_single_ne hsn]
    · rw [if_neg h]
  · rw [qv_mem_last c ep i p m hi]

theorem countAt_accStep (ep : List (link σ α)) (m : omap σ α) (i : ℕ)
    (s : state σ) (a : action α) (sn : state σ) :
    countAt (q_probabilistic.accStep ep m i) s a sn
      = countAt m s a sn + (if accPred ep s a sn i then 1 else 0) := by
  unfold q_probabilistic.accStep
  by_cases hlast : i = ep.length - 1
  · rw [if_pos hlast, if_neg (fun hc => hc.1 hlast)]
    omega
  · rw [if_neg hlast, countAt_bump]
    by_cases hm : s.trait = (ep.getD i default).state.trait ∧
        a.trait = (ep.getD i default).action.trait ∧
        sn.trait = (ep.getD (i + 1) default).state.trait
    · rw [if_pos hm, if_pos ⟨hlast, hm⟩]
    · rw [if_neg hm, if_neg (fun hc => hm hc.2)]

theorem countAt_accfold (ep : List (link σ α)) (s : state σ) (a : action α) (sn : state σ) :
    ∀ (L : List ℕ) (m : omap σ α),
      countAt (L.foldl (q_probabilistic.accStep ep) m) s a sn
        = countAt m s a sn + (L.filter fun i => decide (accPred ep s a sn i)).length := by
  intro L
  induction L with
  | nil => intro m; simp
  | cons i tl ih =>
    intro m
    rw [List.foldl_cons, ih, countAt_accStep, List.filter_cons]
    by_cases hp : accPred ep s a sn i
    · rw [if_pos hp, if_pos (by simpa using hp)]
      simp only [List.length_cons]
      omega
    · rw [if_neg hp, if_neg (by simpa using hp)]
      omega

theorem countAt_updfold (c : q_probabilistic) (ep : List (link σ α))
    (s : state σ) (a : action α) (sn : state σ) :
    ∀ (L : List ℕ) (pm : policy σ α × omap σ α),
      countAt ((L.foldl (c.updStep ep) pm).2) s a sn = countAt pm.2 s a sn := by
  intro L
  induction L with
  | nil => intro pm; rfl
  | cons i tl ih =>
    intro pm
    rw [List.foldl_cons, ih, updStep_snd, countAt_qv]

theorem countAt_apply (c : q_probabilistic) (ep : List (link σ α))
    (p : policy σ α) (m : omap σ α) (s : state σ) (a : action α) (sn : state σ) :
    countAt ((c.apply ep p m).2) s a sn = countAt m s a sn + occurs ep s a sn := by
  unfold q_probabilistic.apply q_probabilistic.accounting occurs
  rw [countAt_updfold, countAt_accfold]

theorem countAt_applyN (c : q_probabilistic) (ep : List (link σ α))
    (s : state σ) (a : action α) (sn : state σ) :
    ∀ (n : ℕ) (pm : policy σ α × omap σ α),
      countAt ((c.applyN ep n pm).2) s a sn
        = countAt pm.2 s a sn + n * occurs ep s a sn := by
  intro n
  induction n with
  | zero =>
    intro pm
    simp [q_probabilistic.applyN]
  | succ k ih =>
    intro pm
    simp only [q_probabilistic.applyN]
    rw [ih, countAt_apply]
    ring

theorem sizeAt_le_accStep (ep : List (link σ α)) (m : omap σ α) (i : ℕ)
    (s : state σ) (a : action α) :
    sizeAt m s a ≤ sizeAt (q_probabilistic.accStep ep m i) s a := by
  unfold q_probabilistic.accStep
  by_cases hlast : i = ep.length - 1
  · rw [if_pos hlast]
  · rw [if_neg hlast]
    exact sizeAt_le_bump _ _ _ _ _ _

theorem one_le_sizeAt_accfold (ep : List (link σ α)) (s : state σ) (a : action α) :
    ∀ (L : List ℕ) (m : omap σ α), 1 ≤ sizeAt m s a →
      1 ≤ sizeAt (L.foldl (q_probabilistic.accStep ep) m) s a := by
  intro L
  induction L with
  | nil => intro m h; exact h
  | cons i tl ih =>
    intro m h
    rw [List.foldl_cons]
    exact ih _ (le_trans h (sizeAt_le_accStep ep m i s a))

theorem one_le_sizeAt_updfold (c : q_probabilistic) (ep : List (link σ α))
    (s : state σ) (a : action α) :
    ∀ (L : List ℕ) (pm : policy σ α × omap σ α), 1 ≤ sizeAt pm.2 s a →
      1 ≤ sizeAt ((L.foldl (c.updStep ep) pm).2) s a := by
  intro L
  induction L with
  | nil => intro pm h; exact h
  | cons i tl ih =>
    intro pm h
    rw [List.foldl_cons]
    refine ih _ (le_trans h ?_)
    rw [updStep_snd]
    exact sizeAt_le_qv _ _ _ _ _ _ _

theorem one_le_sizeAt_accounting (ep : List (link σ α)) (m : omap σ α) (i : ℕ)
    (h : i + 1 < ep.length) :
    1 ≤ sizeAt (q_probabilistic.accounting ep m)
        (ep.getD i default).state (ep.getD i default).action := by
  have hmem : i ∈ List.range ep.length := List.mem_range.mpr (by omega)
  obtain ⟨L1, L2, hsplit⟩ := List.append_of_mem hmem
  unfold q_probabilistic.accounting
  rw [hsplit, List.foldl_append, List.foldl_cons]
  apply one_le_sizeAt_accfold
  unfold q_probabilistic.accStep
  rw [if_neg (by omega : ¬ i = ep.length - 1)]
  exact one_le_sizeAt_bump _ _ _ _

theorem updStep_last (c : q_learning) (ep : List (link σ α)) (p : policy σ α)
    (i : ℕ) (hi : ¬ i < ep.length - 1) :
    c.updStep ep p i
      = policy.update p (ep.getD i default).state (ep.getD i default).action
          (ep.getD i default).state.reward := by
  unfold q_learning.updStep q_learning.q_value
  rw [if_neg hi]

theorem apply_last (c : q_learning) (ep : List (link σ α)) (p : policy σ α) (h : ep ≠ []) :
    q_learning.apply c ep p
      = policy.update ((List.range (ep.length - 1)).foldl (c.updStep ep) p)
          (ep.getD (ep.length - 1) default).state
          (ep.getD (ep.length - 1) default).action
          (ep.getD (ep.length - 1) default).state.reward := by
  obtain ⟨n, hn⟩ : ∃ n, ep.length = n + 1 :=
    ⟨ep.length - 1, (Nat.succ_pred_eq_of_pos (List.length_pos.mpr h)).symm⟩
  unfold q_learning.apply
  rw [hn, List.range_succ, List.foldl_append, List.foldl_cons, List.foldl_nil]
  simp only [Nat.add_sub_cancel]
  rw [updStep_last c ep _ n (by omega)]

theorem pupdStep_last (c : q_probabilistic) (ep : List (link σ α))
    (pm : policy σ α × omap σ α) (i : ℕ) (hi : ¬ i < ep.length - 1) :
    c.updStep ep pm i
      = (policy.update pm.1 (ep.getD i default).state (ep.getD i default).action
          (ep.getD i default).state.reward, pm.2) := by
  unfold q_probabilistic.updStep q_probabilistic.q_value
  rw [if_neg hi]

theorem papply_last (c : q_probabilistic) (ep : List (link σ α))
    (p : policy σ α) (m : omap σ α) (h : ep ≠ []) :
    c.apply ep p m
      = (policy.update (c.before ep p m (ep.length - 1)).1
          (ep.getD (ep.length - 1) default).state
          (ep.getD (ep.length - 1) default).action
          (ep.getD (ep.length - 1) default).state.reward,
         (c.before ep p m (ep.length - 1)).2) := by
  obtain ⟨n, hn⟩ : ∃ n, ep.length = n + 1 :=
    ⟨ep.length - 1, (Nat.succ_pred_eq_of_pos (List.length_pos.mpr h)).symm⟩
  unfold q_probabilistic.apply q_probabilistic.before
  rw [hn, List.range_succ, List.foldl_append, List.foldl_cons, List.foldl_nil]
  simp only [Nat.add_sub_cancel]
  rw [pupdStep_last c ep _ n (by omega)]


theorem papply_fst (c : q_probabilistic) (ep : List (link σ α))
    (p : policy σ α) (m : omap σ α) (h : ep ≠ []) :
    (c.apply ep p m).1
      = policy.update (c.before ep p m (ep.length - 1)).1
          (ep.getD (ep.length - 1) default).state
          (ep.getD (ep.length - 1) default).action
          (ep.getD (ep.length - 1) default).state.reward := by
  rw [papply_last c ep p m h]

end memlemmas

section bestlemmas

variable {σ α : Type} [DecidableEq σ] [DecidableEq α]

theorem best_value_eq (p : policy σ α) (s : state σ) :
    policy.best_value p s
      = (((policy.maxElem (getOr state.trait p s []).1).map Prod.snd).getD 0,
         (getOr state.trait p s []).2) := by
  simp only [policy.best_value]
  cases policy.maxElem (getOr state.trait p s ([] : List (action α × ℚ))).1 <;> rfl

end bestlemmas

section claims

variable {σ α : Type} [DecidableEq σ] [DecidableEq α] [Inhabited σ] [Inhabited α]

/-- The two-step episode of the deterministic one-step update example:
s0 with reward 0, then the terminal s1 with reward 1. -/
def epC1 : List (link ℕ ℕ) := [⟨sN 0 0, aN 0⟩, ⟨sN 1 1, aN 1⟩]

/-- Claim C1, counterexample: with alpha one half and gamma nine
tenths, applying the deterministic algorithm to the two-step episode on
a fresh table does not leave the value of the first pair at 0.45,
because the forward pass reads best_value of the terminal state before
the terminal reward has been written. -/
theorem one_step_update_cx :
    (policy.value (q_learning.apply ⟨1/2, 9/10⟩ epC1 []) (sN 0 0) (aN 0)).1 ≠ 45/100 := by
  norm_num [q_learning.apply, q_learning.updStep, q_learning.q_value, epC1,
    policy.value, policy.update, policy.best_value, policy.maxElem, policy.maxStep,
    getOr, lookupBy, setBy, sN, aN, List.range_succ]

/-- Claim C1, amended: on a fresh table the same call leaves the value
of the terminal pair at 1 and the value of the first pair at 0, since
at index 0 the bootstrap term best_value of s1 is still 0. -/
theorem one_step_update_amended :
    (policy.value (q_learning.apply ⟨1/2, 9/10⟩ epC1 []) (sN 1 1) (aN 1)).1 = 1 ∧
    (policy.value (q_learning.apply ⟨1/2, 9/10⟩ epC1 []) (sN 0 0) (aN 0)).1 = 0 := by
  constructor <;>
    norm_num [q_learning.apply, q_learning.updStep, q_learning.q_value, epC1,
      policy.value, policy.update, policy.best_value, policy.maxElem, policy.maxStep,
      getOr, lookupBy, setBy, sN, aN, List.range_succ]

/-- An episode in which the pair of the first step has two distinct
recorded successors: the first state has reward 2 and occurs at indices
0 and 2, moving to two different states. -/
def epC2 : List (link ℕ ℕ) :=
  [⟨sN 2 0, aN 0⟩, ⟨sN 0 1, aN 0⟩, ⟨sN 2 0, aN 0⟩, ⟨sN 0 2, aN 0⟩, ⟨sN 1 3, aN 0⟩]

/-- Claim C2, failing input: after one apply on fresh memory the pair
of the first step has transition count 1 and successor count 2, so the
real-valued quotient of the claim is one half and the claimed value at
the final write of that pair is one half times reward 2, namely 1; the
code divides the two size_t operands as integers, so prob is 0 and the
stored value is 0. -/
theorem prob_integer_division :
    (policy.value ((q_probabilistic.apply ⟨9/10⟩ epC2 [] []).1) (sN 2 0) (aN 0)).1 = 0 ∧
    countAt ((q_probabilistic.apply ⟨9/10⟩ epC2 [] []).2) (sN 2 0) (aN 0) (sN 0 1) = 1 ∧
    sizeAt ((q_probabilistic.apply ⟨9/10⟩ epC2 [] []).2) (sN 2 0) (aN 0) = 2 ∧
    ((1 : ℚ)/2) * (sN 2 0).reward + (9/10) * (0 * ((1 : ℚ)/2)) = 1 := by
  refine ⟨?_, by decide, by decide, ?_⟩
  · norm_num [q_probabilistic.apply, q_probabilistic.updStep, q_probabilistic.q_value,
      q_probabilistic.accounting, q_probabilistic.accStep, q_probabilistic.bumpMem, epC2,
      policy.value, policy.update, policy.best_value, policy.maxElem, policy.maxStep,
      getOr, lookupBy, setBy, sN, aN, List.range_succ]
  · norm_num [sN]

/-- Claim C3, counterexample: on a concrete nonempty table, passing the
empty episode to either algorithm returns the table (and memory)
unchanged; there is no failure of any kind, the call is a silent
no-op. -/
theorem empty_episode_cx :
    q_learning.apply ⟨1/2, 9/10⟩ ([] : List (link ℕ ℕ)) [(sN 0 0, [(aN 0, 5)])]
        = [(sN 0 0, [(aN 0, 5)])] ∧
    q_probabilistic.apply ⟨9/10⟩ ([] : List (link ℕ ℕ)) [(sN 0 0, [(aN 0, 5)])] []
        = ([(sN 0 0, [(aN 0, 5)])], []) :=
  ⟨rfl, rfl⟩

/-- Claim C3, amended: an empty episode passed to either apply entry
point is a silent no-op: both loops run zero iterations, the policy
table and the observation memory are returned exactly unchanged, and no
out-of-bounds access happens. -/
theorem empty_episode_noop (c : q_learning) (cp : q_probabilistic)
    (p : policy σ α) (m : omap σ α) :
    q_learning.apply c [] p = p ∧ cp.apply [] p m = (p, m) :=
  ⟨rfl, rfl⟩

/-- Claim C4: for every nonempty episode and any prior table contents,
after apply of either algorithm the stored value of the final pair is
exactly the final state reward, because the last loop iteration takes
the terminal branch and overwrites whatever was stored, including
writes made for the same pair at earlier indices. -/
theorem terminal_rule (c : q_learning) (cp : q_probabilistic) (ep : List (link σ α))
    (p p2 : policy σ α) (m : omap σ α) (h : ep ≠ []) :
    (policy.value (q_learning.apply c ep p)
        (ep.getD (ep.length - 1) default).state
        (ep.getD (ep.length - 1) default).action).1
      = (ep.getD (ep.length - 1) default).state.reward ∧
    (policy.value ((cp.apply ep p2 m).1)
        (ep.getD (ep.length - 1) default).state
        (ep.getD (ep.length - 1) default).action).1
      = (ep.getD (ep.length - 1) default).state.reward := by
  constructor
  · rw [apply_last c ep p h, value_eq_stored, valueStored_update_self]
    rfl
  · rw [papply_fst cp ep p2 m h, value_eq_stored, valueStored_update_self]
    rfl

/-- The two-step witness episode for the terminal rule. -/
def epW4 : List (link ℕ ℕ) := [⟨sN 0 0, aN 0⟩, ⟨sN 1 1, aN 1⟩]

/-- Claim C4, witness at a concrete input. -/
theorem terminal_rule_witness :
    epW4 ≠ [] ∧
    ((policy.value (q_learning.apply ⟨1/2, 9/10⟩ epW4 [])
        (epW4.getD (epW4.length - 1) default).state
        (epW4.getD (epW4.length - 1) default).action).1
      = (epW4.getD (epW4.length - 1) default).state.reward ∧
    (policy.value ((q_probabilistic.apply ⟨9/10⟩ epW4 [] []).1)
        (epW4.getD (epW4.length - 1) default).state
        (epW4.getD (epW4.length - 1) default).action).1
      = (epW4.getD (epW4.length - 1) default).state.reward) :=
  ⟨by decide, terminal_rule ⟨1/2, 9/10⟩ ⟨9/10⟩ epW4 [] [] [] (by decide)⟩

/-- Claim C5: during the update pass of one apply call, at every
non-last index the divisor read by the probabilistic update, the number
of distinct successors recorded for the pair of that step, is nonzero:
the accounting pass of the same call has already recorded the very
transition of that index, and neither later accounting increments nor
the vivifying reads of earlier update steps can shrink it. -/
theorem division_denominator_pos (c : q_probabilistic) (ep : List (link σ α))
    (p : policy σ α) (m : omap σ α) (i : ℕ) (h : i + 1 < ep.length) :
    0 < sizeAt ((c.before ep p m i).2)
        (ep.getD i default).state (ep.getD i default).action := by
  unfold q_probabilistic.before
  exact one_le_sizeAt_updfold c ep _ _ _ _ (one_le_sizeAt_accounting ep m i h)

/-- The witness episode for the nonzero divisor. -/
def epW5 : List (link ℕ ℕ) := [⟨sN 0 0, aN 0⟩, ⟨sN 1 1, aN 1⟩]

/-- Claim C5, witness at a concrete input. -/
theorem division_denominator_pos_witness :
    0 + 1 < epW5.length ∧
    0 < sizeAt ((q_probabilistic.before ⟨9/10⟩ epW5 [] [] 0).2)
        (epW5.getD 0 default).state (epW5.getD 0 default).action :=
  ⟨by decide, division_denominator_pos ⟨9/10⟩ epW5 [] [] 0 (by decide)⟩

/-- Claim C6: on a freshly constructed empty table, value of any pair
is 0, best_value of any state is 0 and best_action of any state is
none. -/
theorem fresh_policy_defaults (s : state σ) (a : action α) :
    (policy.value ([] : policy σ α) s a).1 = 0 ∧
    (policy.best_value ([] : policy σ α) s).1 = 0 ∧
    (policy.best_action ([] : policy σ α) s).1 = none :=
  ⟨rfl, rfl, rfl⟩

/-- Claim C7: for a state whose recorded action map is nonempty,
best_value is an upper bound of all stored values that is attained, and
best_action returns an action of an entry attaining it, so the result
is always a member of the maximizer set. -/
theorem best_value_max (p : policy σ α) (s : state σ)
    (h : (policy.actions p s).1 ≠ []) :
    (∀ x ∈ (policy.actions p s).1, x.2 ≤ (policy.best_value p s).1) ∧
    (∃ x ∈ (policy.actions p s).1,
      (policy.best_action p s).1 = some x.1 ∧ x.2 = (policy.best_value p s).1) := by
  unfold policy.actions at h ⊢
  obtain ⟨pr, hm, hmem, hle⟩ := maxElem_spec h
  have hbv : (policy.best_value p s).1 = pr.2 := by
    rw [best_value_eq]
    show ((policy.maxElem (getOr state.trait p s []).1).map Prod.snd).getD 0 = pr.2
    rw [hm]
    rfl
  have hba : (policy.best_action p s).1 = some pr.1 := by
    show ((policy.maxElem (getOr state.trait p s []).1).map fun x => x.1) = some pr.1
    rw [hm]
    rfl
  constructor
  · intro x hx
    rw [hbv]
    exact hle x hx
  · exact ⟨pr, hmem, hba, by rw [hbv]⟩

/-- The witness table of the tie example: three actions with values 3,
seven halves plus four, and the same again. -/
def pW7 : policy ℕ ℕ := [(sN 0 0, [(aN 1, 3), (aN 2, 15/2), (aN 3, 15/2)])]

/-- Claim C7, witness at the tie example of the specification. -/
theorem best_value_max_witness :
    (policy.actions pW7 (sN 0 0)).1 ≠ [] ∧
    ((∀ x ∈ (policy.actions pW7 (sN 0 0)).1, x.2 ≤ (policy.best_value pW7 (sN 0 0)).1) ∧
    (∃ x ∈ (policy.actions pW7 (sN 0 0)).1,
      (policy.best_action pW7 (sN 0 0)).1 = some x.1 ∧
      x.2 = (policy.best_value pW7 (sN 0 0)).1)) :=
  ⟨by decide, best_value_max pW7 (sN 0 0) (by decide)⟩

/-- The episode with one transition recorded at two indices: the same
pair moves to the same state at indices 0 and 1. -/
def epC8 : List (link ℕ ℕ) := [⟨sN 0 0, aN 0⟩, ⟨sN 0 0, aN 0⟩, ⟨sN 0 0, aN 0⟩]

/-- Claim C8, counterexample: feeding that episode once to a fresh
instance raises the count of its recorded transition by 2, not by 1,
because the accounting pass increments once per index at which the
transition occurs. -/
theorem accounting_repeat_cx :
    ¬ (countAt ((q_probabilistic.apply ⟨9/10⟩ epC8 [] []).2) (sN 0 0) (aN 0) (sN 0 0)
        = countAt ([] : omap ℕ ℕ) (sN 0 0) (aN 0) (sN 0 0) + 1) := by
  decide

/-- Claim C8, amended: feeding the same episode n times raises every
frequency count by exactly n times the number of accounting indices of
the episode that record that transition, in particular by exactly n for
a transition recorded at one index, and a single apply never decreases
any count. -/
theorem accounting_accumulation (c : q_probabilistic) (ep : List (link σ α)) (n : ℕ)
    (p : policy σ α) (m : omap σ α) (s : state σ) (a : action α) (sn : state σ) :
    countAt ((c.applyN ep n (p, m)).2) s a sn
        = countAt m s a sn + n * occurs ep s a sn ∧
    countAt m s a sn ≤ countAt ((c.apply ep p m).2) s a sn := by
  constructor
  · exact countAt_applyN c ep s a sn n (p, m)
  · rw [countAt_apply]
    omega

/-- Claim C9: update writes only the entry of its pair: the stored
value of every pair with a different state trait or a different action
trait is unchanged, and the written entry holds exactly the new
value. -/
theorem update_frame (p : policy σ α) (s : state σ) (a : action α) (v : ℚ)
    (s2 : state σ) (a2 : action α)
    (h : s2.trait ≠ s.trait ∨ a2.trait ≠ a.trait) :
    policy.valueStored (policy.update p s a v) s2 a2 = policy.valueStored p s2 a2 ∧
    policy.valueStored (policy.update p s a v) s a = some v := by
  refine ⟨?_, valueStored_update_self p s a v⟩
  unfold policy.update policy.valueStored
  by_cases hs : s2.trait = s.trait
  · have ha : ¬ a2.trait = a.trait := by
      rcases h with h | h
      · exact absurd hs h
      · exact h
    rw [lookupBy_setBy_eq hs]
    simp only [Option.some_bind]
    rw [lookupBy_setBy_ne ha, getOr_fst, lookupBy_congr (f := state.trait) hs]
    cases hp : lookupBy state.trait p s <;> simp [lookupBy]
  · rw [lookupBy_setBy_ne hs]
    cases hp : lookupBy state.trait p s with
    | some mp => rw [getOr_snd_of_some hp]
    | none => rw [getOr_snd_of_none hp, lookupBy_append_single_ne hs]

/-- Claim C9, witness at a concrete input. -/
theorem update_frame_witness :
    ((sN 0 0).trait ≠ (sN 0 0).trait ∨ (aN 0).trait ≠ (aN 1).trait) ∧
    (policy.valueStored (policy.update [(sN 0 0, [(aN 0, 5)])] (sN 0 0) (aN 1) 3)
        (sN 0 0) (aN 0)
      = policy.valueStored [(sN 0 0, [(aN 0, 5)])] (sN 0 0) (aN 0) ∧
    policy.valueStored (policy.update [(sN 0 0, [(aN 0, 5)])] (sN 0 0) (aN 1) 3)
        (sN 0 0) (aN 1) = some 3) :=
  ⟨Or.inr (by decide),
   update_frame [(sN 0 0, [(aN 0, 5)])] (sN 0 0) (aN 1) 3 (sN 0 0) (aN 0)
     (Or.inr (by decide))⟩

/-- Claim C10: best_value and best_action on a state absent from the
table insert an entry with an empty action map for it, growing the key
list by that state, while returning 0 and none respectively. -/
theorem read_vivifies (p : policy σ α) (s : state σ)
    (h : lookupBy state.trait p s = none) :
    (policy.best_value p s).2 = p ++ [(s, [])] ∧
    (policy.best_action p s).2 = p ++ [(s, [])] ∧
    (policy.best_value p s).1 = 0 ∧
    (policy.best_action p s).1 = none := by
  have h1 : (getOr state.trait p s ([] : List (action α × ℚ))).1 = [] := by
    rw [getOr_fst, h]
    rfl
  have h2 := getOr_snd_of_none h ([] : List (action α × ℚ))
  refine ⟨?_, ?_, ?_, ?_⟩
  · rw [best_value_eq]
    exact h2
  · show (getOr state.trait p s []).2 = _
    exact h2
  · rw [best_value_eq]
    show ((policy.maxElem (getOr state.trait p s []).1).map Prod.snd).getD 0 = 0
    rw [h1]
    rfl
  · show ((policy.maxElem (getOr state.trait p s []).1).map fun pr => pr.1) = none
    rw [h1]
    rfl

/-- Claim C10, witness at a concrete input: a one-entry table read at
an absent state. -/
theorem read_vivifies_witness :
    lookupBy state.trait ([(sN 0 5, [(aN 0, 1)])] : policy ℕ ℕ) (sN 0 7) = none ∧
    ((policy.best_value ([(sN 0 5, [(aN 0, 1)])] : policy ℕ ℕ) (sN 0 7)).2
        = [(sN 0 5, [(aN 0, 1)])] ++ [(sN 0 7, [])] ∧
    (policy.best_action ([(sN 0 5, [(aN 0, 1)])] : policy ℕ ℕ) (sN 0 7)).2
        = [(sN 0 5, [(aN 0, 1)])] ++ [(sN 0 7, [])] ∧
    (policy.best_value ([(sN 0 5, [(aN 0, 1)])] : policy ℕ ℕ) (sN 0 7)).1 = 0 ∧
    (policy.best_action ([(sN 0 5, [(aN 0, 1)])] : policy ℕ ℕ) (sN 0 7)).1 = none) :=
  ⟨by decide, read_vivifies [(sN 0 5, [(aN 0, 1)])] (sN 0 7) (by decide)⟩

end claims

end relearn
